import Mathlib

/-!
Shallow embedding of `test-scripts/verify_markdownlint_fixtures.py`.

Strings are modelled as `List Char`.  Python `\s` (and `str.strip` /
`str.isspace`) is modelled by `isPySpace`, covering the full Unicode
whitespace set Python uses for `str` patterns.  Python `\d` is modelled
as the ASCII digits `0`-`9` (non-ASCII decimal digits never occur in
markdownlint output and are immaterial to the verified properties).
`str.splitlines` is modelled by `splitlines`, including the `\r\n`
pairing and the full set of line-terminator code points.
-/

namespace VerifyFixtures

/-- Python whitespace (`str.isspace`, and `\s` in `str` regex patterns):
ASCII whitespace, the information separators, NEL, and the Unicode
space/line/paragraph separators. -/
def isPySpace (c : Char) : Bool :=
  c.toNat == 32 || c.toNat == 9 || c.toNat == 10 || c.toNat == 11 ||
  c.toNat == 12 || c.toNat == 13 || c.toNat == 28 || c.toNat == 29 ||
  c.toNat == 30 || c.toNat == 31 || c.toNat == 133 || c.toNat == 160 ||
  c.toNat == 5760 || c.toNat == 8192 || c.toNat == 8193 || c.toNat == 8194 ||
  c.toNat == 8195 || c.toNat == 8196 || c.toNat == 8197 || c.toNat == 8198 ||
  c.toNat == 8199 || c.toNat == 8200 || c.toNat == 8201 || c.toNat == 8202 ||
  c.toNat == 8232 || c.toNat == 8233 || c.toNat == 8239 || c.toNat == 8287 ||
  c.toNat == 12288

/-- ASCII decimal digit (model of `\d`, see module comment). -/
def isPyDigit (c : Char) : Bool :=
  48 ≤ c.toNat && c.toNat ≤ 57

/-- Line-boundary code points of Python `str.splitlines`. -/
def isLineTerm (c : Char) : Bool :=
  c.toNat == 10 || c.toNat == 13 || c.toNat == 11 || c.toNat == 12 ||
  c.toNat == 28 || c.toNat == 29 || c.toNat == 30 || c.toNat == 133 ||
  c.toNat == 8232 || c.toNat == 8233

/-- Python `str.strip()`: drop whitespace from both ends. -/
def pyStrip (s : List Char) : List Char :=
  ((s.dropWhile isPySpace).reverse.dropWhile isPySpace).reverse

/-- `str.splitlines` worker: `acc` holds the current line reversed.
`\r\n` counts as a single boundary; a trailing boundary produces no
trailing empty line. -/
def splitlinesGo (acc : List Char) : List Char → List (List Char)
  | [] => if acc = [] then [] else [acc.reverse]
  | '\r' :: '\n' :: rest => acc.reverse :: splitlinesGo [] rest
  | c :: rest =>
      if isLineTerm c then acc.reverse :: splitlinesGo [] rest
      else splitlinesGo (c :: acc) rest

/-- Python `str.splitlines`. -/
def splitlines (s : List Char) : List (List Char) :=
  splitlinesGo [] s

/-- `s.startswith(p)` on char lists (`s` first, prefix second). -/
def startsWithL : List Char → List Char → Bool
  | _, [] => true
  | [], _ :: _ => false
  | c :: cs, p :: ps => c == p && startsWithL cs ps

/-- Value of `int(digit-string)` for a string of ASCII digits. -/
def digitsToNat (ds : List Char) : Nat :=
  ds.foldl (fun a c => a * 10 + (c.toNat - 48)) 0

/-- The dataclass `ExpectedError`: one expected-or-actual lint finding. -/
structure ExpectedError where
  line : Int
  rule : List Char
  column : Option Int := none
  message_contains : Option (List Char) := none
  message : Option (List Char) := none
deriving DecidableEq

/-- Model of the YAML-derived Python values handled by the loader. -/
inductive Val where
  | vnull
  | vbool (b : Bool)
  | vint (n : Int)
  | vstr (s : List Char)
  | vlist (items : List Val)
  | vmap (entries : List (List Char × Val))

/-- First-match association lookup (YAML mappings have unique keys). -/
def pyLookup : List (List Char × Val) → List Char → Option Val
  | [], _ => none
  | (k, v) :: rest, key => if k = key then some v else pyLookup rest key

/-- Python `dict.get(key)`: `none` for an absent key and for an explicit
YAML `null` value (both are `None` to the caller). -/
def pyGet (entries : List (List Char × Val)) (key : List Char) : Option Val :=
  match pyLookup entries key with
  | some .vnull => none
  | some v => some v
  | none => none

/-- Python `isinstance(x, int)` view of a value (`bool` is an `int`
subtype in Python, `True` counting as `1` and `False` as `0`). -/
def pyAsInt : Val → Option Int
  | .vint n => some n
  | .vbool b => some (if b then 1 else 0)
  | _ => none

/-- The distinct `ValueError` cases raised by the expectation loader. -/
inductive SpecError where
  | itemNotObject (idx : Nat) (fp : List Char)
  | badLineOrRule (idx : Nat) (fp : List Char)
  | badColumn (idx : Nat) (fp : List Char)
  | badMessageContains (idx : Nat) (fp : List Char)
  | dataNotObject (fp : List Char)
  | errorsNotList (fp : List Char)
deriving DecidableEq

/-- The `column` validation step of `_parse_one_error`: absent (or YAML
null) means no column; otherwise it must be an int `>= 1`. -/
def _parse_column (colV : Option Val) (idx : Nat) (fp : List Char) :
    Except SpecError (Option Int) :=
  match colV with
  | none => .ok none
  | some cv =>
    match pyAsInt cv with
    | some c => if c < 1 then .error (.badColumn idx fp) else .ok (some c)
    | none => .error (.badColumn idx fp)

/-- `_parse_one_error`: parse and validate a single error object from the
expectations data.  The checks run in the source's order: shape, then
`line`/`rule`, then `column`, then `message_contains`. -/
def _parse_one_error (item : Val) (idx : Nat) (fp : List Char) :
    Except SpecError ExpectedError :=
  match item with
  | .vmap entries =>
    match (pyGet entries "line".toList).bind pyAsInt, pyGet entries "rule".toList with
    | some n, some (.vstr s) =>
      if n < 1 ∨ pyStrip s = [] then .error (.badLineOrRule idx fp)
      else
        match _parse_column (pyGet entries "column".toList) idx fp with
        | .error e => .error e
        | .ok col =>
          match pyGet entries "message_contains".toList with
          | none =>
              .ok { line := n, rule := pyStrip s, column := col,
                    message_contains := none, message := none }
          | some (.vstr m) =>
              .ok { line := n, rule := pyStrip s, column := col,
                    message_contains := some m, message := none }
          | some _ => .error (.badMessageContains idx fp)
    | _, _ => .error (.badLineOrRule idx fp)
  | _ => .error (.itemNotObject idx fp)

/-- The list comprehension over `errors`: parse each item, propagating
the first `ValueError`. -/
def parseErrList (fp : List Char) : List Val → Nat →
    Except SpecError (List ExpectedError)
  | [], _ => .ok []
  | it :: rest, idx =>
    match _parse_one_error it idx fp with
    | .error e => .error e
    | .ok e =>
      match parseErrList fp rest (idx + 1) with
      | .error e2 => .error e2
      | .ok es => .ok (e :: es)

/-- `parse_expectations_from_data`: parse expectations from a dict with
an `errors` list.  The returned total is `len(parsed)`. -/
def parse_expectations_from_data (data : Val) (fp : List Char) :
    Except SpecError (Nat × List ExpectedError) :=
  match data with
  | .vmap entries =>
    match pyGet entries "errors".toList with
    | some (.vlist items) =>
      match parseErrList fp items 0 with
      | .error e => .error e
      | .ok parsed => .ok (parsed.length, parsed)
    | _ => .error (.errorsNotList fp)
  | _ => .error (.dataNotObject fp)

end VerifyFixtures

/-!
The output-line pattern `_RE_ERROR_LINE`:

  `^[^:]+:(\d+)(?::(\d+))?\s+(?:error\s+)?(\S+)\s+(.*)$`

applied with `re.match` to single lines produced by `splitlines` (which
therefore contain no line-terminator characters, in particular no
newline, so `.` matches every remaining character and `$` is end of
string).  Each greedy piece below is maximal-munch, which agrees with
the backtracking engine on this pattern:
* `[^:]+` cannot give back characters, since the following `:` never
  matches a non-colon;
* after the maximal `(\d+)` runs, giving back a digit would require
  `:` or `\s` to match a digit;
* shortening a maximal `\s+` run would require `\S` (or `e` of
  `error`) to match a whitespace character;
* the only genuine backtracking point is the optional `(?:error\s+)?`
  group: if taking it makes the tail `(\S+)\s+(.*)$` fail, the engine
  retries with the group matching empty.  `matchTail` implements
  exactly that two-way choice.
-/

namespace VerifyFixtures

/-- Tail `(\S+)\s+(.*)$`: a maximal nonempty run of non-whitespace
(the rule token), then at least one whitespace character, then the
message text after the maximal whitespace run. -/
def matchRuleTail (t : List Char) : Option (List Char × List Char) :=
  match t.takeWhile (fun c => !isPySpace c), t.dropWhile (fun c => !isPySpace c) with
  | [], _ => none
  | _, [] => none
  | tok, rest => some (tok, rest.dropWhile isPySpace)

/-- Tail `(?:error\s+)?(\S+)\s+(.*)$` with the group's backtracking: the
group fires when `t` starts with the literal `error` followed by at
least one whitespace character; if the rest of the tail then fails, the
engine retries with the group matching empty. -/
def matchTail (t : List Char) : Option (List Char × List Char) :=
  let grp : Option (List Char × List Char) :=
    if startsWithL t "error".toList then
      match t.drop 5 with
      | c :: rest =>
        if isPySpace c then matchRuleTail ((c :: rest).dropWhile isPySpace)
        else none
      | [] => none
    else none
  match grp with
  | some r => some r
  | none => matchRuleTail t

/-- The optional column group `(?::(\d+))?` at position `r3` (just after
the line-number digits): when a colon followed by at least one digit is
present it is consumed (the column being the maximal digit run),
otherwise the group matches empty and the position stays at `r3`. -/
def matchColumn (r3 : List Char) : Option Nat × List Char :=
  match r3 with
  | c :: r3' =>
    if c = ':' then
      if r3'.takeWhile isPyDigit = [] then (none, r3)
      else (some (digitsToNat (r3'.takeWhile isPyDigit)), r3'.dropWhile isPyDigit)
    else (none, r3)
  | [] => (none, r3)

/-- `_RE_ERROR_LINE.match(line)` on a terminator-free line, returning
`(line number, optional column, rule token, raw message group)`:
a nonempty run of non-colon characters, the first colon, a nonempty
digit run (the line number), the optional column group, at least one
whitespace character, then the `matchTail` part. -/
def matchErrorLine (s : List Char) : Option (Nat × Option Nat × List Char × List Char) :=
  if s.takeWhile (fun c => c != ':') = [] then none
  else
    match s.dropWhile (fun c => c != ':') with
    | c1 :: r2 =>
      if c1 = ':' then
        if r2.takeWhile isPyDigit = [] then none
        else
          match (matchColumn (r2.dropWhile isPyDigit)).2 with
          | c :: _ =>
            if isPySpace c then
              match matchTail
                  ((matchColumn (r2.dropWhile isPyDigit)).2.dropWhile isPySpace) with
              | some ruleMsg =>
                some (digitsToNat (r2.takeWhile isPyDigit),
                  (matchColumn (r2.dropWhile isPyDigit)).1, ruleMsg.1, ruleMsg.2)
              | none => none
            else none
          | [] => none
      else none
    | [] => none

/-- One iteration of the loop in `parse_markdownlint_output`: keep the
line only if it starts with `file_label + ":"` and matches the pattern;
the record's `message` is the stripped group 4 and `message_contains`
is never set. -/
def lineRecord (file_label : List Char) (line : List Char) : Option ExpectedError :=
  if startsWithL line (file_label ++ [':']) then
    match matchErrorLine line with
    | some (n, col, rule, msg) =>
      some { line := (n : Int), rule := rule, column := col.map (fun c => (c : Int)),
             message_contains := none, message := some (pyStrip msg) }
    | none => none
  else none

/-- The loop body of `parse_markdownlint_output` over already-split lines. -/
def parse_lines (lines : List (List Char)) (file_label : List Char) :
    List ExpectedError :=
  lines.filterMap (lineRecord file_label)

/-- `parse_markdownlint_output`: split the combined output into lines and
collect the records of lines prefixed by `file_label + ":"`. -/
def parse_markdownlint_output (output : List Char) (file_label : List Char) :
    List ExpectedError :=
  parse_lines (splitlines output) file_label

/-- Key for count maps: `(line, rule, column)` (message fields ignored). -/
def _count_map_key (e : ExpectedError) : Int × List Char × Option Int :=
  (e.line, e.rule, e.column)

/-- Count maps are insertion-ordered association lists, mirroring Python
dict semantics (`m[key] = m.get(key, 0) + 1`). -/
def cmLookup : List ((Int × List Char × Option Int) × Nat) →
    (Int × List Char × Option Int) → Option Nat
  | [], _ => none
  | (k, c) :: rest, key => if k = key then some c else cmLookup rest key

/-- Increment `key` in place, or append it with count 1. -/
def bump : List ((Int × List Char × Option Int) × Nat) →
    (Int × List Char × Option Int) → List ((Int × List Char × Option Int) × Nat)
  | [], key => [(key, 1)]
  | (k, c) :: rest, key =>
      if k = key then (k, c + 1) :: rest else (k, c) :: bump rest key

/-- `to_count_map`: build the multiset of `(line, rule, column)` counts. -/
def to_count_map (errors : List ExpectedError) :
    List ((Int × List Char × Option Int) × Nat) :=
  errors.foldl (fun m e => bump m (_count_map_key e)) []

/-- Sum of all counts of a count map. -/
def sumCounts (m : List ((Int × List Char × Option Int) × Nat)) : Nat :=
  (m.map (fun kc => kc.2)).sum

/-- Python `haystack.find(needle) >= 0`: `needle` occurs as a contiguous
(case-sensitive) substring; the empty needle always occurs. -/
def containsSub (hay needle : List Char) : Bool :=
  startsWithL hay needle ||
    match hay with
    | [] => false
    | _ :: t => containsSub t needle

/-- The candidate filter of `_assert_message_contains`: actual records at
the same line and rule, and at the same column when the expectation
specifies one. -/
def candidatesFor (act_errors : List ExpectedError) (exp : ExpectedError) :
    List ExpectedError :=
  act_errors.filter (fun a =>
    a.line == exp.line && a.rule == exp.rule &&
      (match exp.column with
       | none => true
       | some c => a.column == some c))

/-- The data carried by each distinct failure message of `verify_file`
and `_assert_message_contains` (every message also embeds the full
combined captured output). -/
inductive VerifyFailure where
  | exitCode (expected_zero : Bool) (got : Int) (combined : List Char)
  | errorCount (expected : Nat) (got : Nat) (combined : List Char)
  | pairMismatch (line : Int) (rule : List Char) (expected : Nat) (got : Nat)
      (combined : List Char)
  | columnShortfall (line : Int) (rule : List Char) (column : Int)
      (expected : Nat) (got : Nat) (combined : List Char)
  | msgNoCandidate (line : Int) (rule : List Char) (needle : List Char)
      (combined : List Char)
  | msgNotFound (line : Int) (rule : List Char) (needle : List Char)
      (firstMsg : Option (List Char)) (combined : List Char)
deriving DecidableEq

/-- `_assert_message_contains`: for each expected record carrying
`message_contains`, some candidate actual record's message must contain
the substring; the first violation (in expectation order) is reported. -/
def _assert_message_contains (exp_errors act_errors : List ExpectedError)
    (combined : List Char) : Option VerifyFailure :=
  match exp_errors with
  | [] => none
  | exp :: rest =>
    match exp.message_contains with
    | none => _assert_message_contains rest act_errors combined
    | some s =>
      match candidatesFor act_errors exp with
      | [] => some (.msgNoCandidate exp.line exp.rule s combined)
      | c :: cs =>
        if (c :: cs).any (fun a => containsSub (a.message.getD []) s) then
          _assert_message_contains rest act_errors combined
        else some (.msgNotFound exp.line exp.rule s c.message combined)

/-- The exit-code policy check (`exp_ok = not exp_total`,
`act_ok = not proc.returncode`). -/
def exitCheck (exp_total : Nat) (returncode : Int) (combined : List Char) :
    Option VerifyFailure :=
  let exp_ok := exp_total == 0
  let act_ok := returncode == 0
  if exp_ok != act_ok then some (.exitCode exp_ok returncode combined) else none

/-- The total-count check (`len(act_errors) != exp_total`). -/
def countCheck (exp_total : Nat) (act_errors : List ExpectedError)
    (combined : List Char) : Option VerifyFailure :=
  if act_errors.length != exp_total then
    some (.errorCount exp_total act_errors.length combined)
  else none

/-- `sum(c for (l, r, _), c in m.items() if l == line and r == rule)`. -/
def sumLR (m : List ((Int × List Char × Option Int) × Nat)) (line : Int)
    (rule : List Char) : Nat :=
  ((m.filter (fun kc => kc.1.1 == line && kc.1.2.1 == rule)).map
    (fun kc => kc.2)).sum

/-- The set `line_rule_pairs(exp_map) | line_rule_pairs(act_map)`,
as a duplicate-free list. -/
def pairsOf (exp_map act_map : List ((Int × List Char × Option Int) × Nat)) :
    List (Int × List Char) :=
  (((exp_map ++ act_map).map (fun kc => (kc.1.1, kc.1.2.1)))).dedup

/-- Python string `<` (lexicographic by code point). -/
def strLt : List Char → List Char → Bool
  | [], [] => false
  | [], _ :: _ => true
  | _ :: _, [] => false
  | a :: as, b :: bs =>
      if a.toNat < b.toNat then true
      else if b.toNat < a.toNat then false
      else strLt as bs

/-- Python tuple `<=` on `(int, str)` pairs, the order used by
`sorted(pairs)`. -/
def pairLe (p q : Int × List Char) : Bool :=
  if p.1 < q.1 then true
  else if q.1 < p.1 then false
  else if strLt p.2 q.2 then true
  else if strLt q.2 p.2 then false
  else true

/-- Insertion step of sorting the pair set. -/
def insertPair (p : Int × List Char) : List (Int × List Char) →
    List (Int × List Char)
  | [] => [p]
  | q :: rest => if pairLe p q then p :: q :: rest else q :: insertPair p rest

/-- `sorted(pairs)`. -/
def sortPairs : List (Int × List Char) → List (Int × List Char)
  | [] => []
  | p :: rest => insertPair p (sortPairs rest)

/-- First element on which `f` fires, mirroring a `for` loop that raises
at the first violation. -/
def firstFail {α β : Type} (f : α → Option β) : List α → Option β
  | [] => none
  | x :: rest =>
    match f x with
    | some b => some b
    | none => firstFail f rest

/-- The per-`(line, rule)` summed-count loop of `verify_file`: iterate
the sorted pair set and report the first pair whose summed expected and
actual counts differ. -/
def pairCheck (exp_map act_map : List ((Int × List Char × Option Int) × Nat))
    (combined : List Char) : Option VerifyFailure :=
  firstFail
    (fun p =>
      let exp_sum := sumLR exp_map p.1 p.2
      let act_sum := sumLR act_map p.1 p.2
      if exp_sum != act_sum then
        some (.pairMismatch p.1 p.2 exp_sum act_sum combined)
      else none)
    (sortPairs (pairsOf exp_map act_map))

/-- The per-`(line, rule, column)` sufficiency loop of `verify_file`:
for each expected key that pins a column, the actual count at that exact
key must be at least the expected count. -/
def colCheck (exp_map act_map : List ((Int × List Char × Option Int) × Nat))
    (combined : List Char) : Option VerifyFailure :=
  firstFail
    (fun kc =>
      match kc.1.2.2 with
      | none => none
      | some col =>
        let act := (cmLookup act_map kc.1).getD 0
        if kc.2 > act then
          some (.columnShortfall kc.1.1 kc.1.2.1 col kc.2 act combined)
        else none)
    exp_map

/-- The check sequence of `verify_file` after the linter has run and its
output has been parsed: exit-code policy, total count, per-pair summed
counts, per-column sufficiency, then message containment. -/
def verify_checks (exp_total : Nat) (exp_errors : List ExpectedError)
    (returncode : Int) (act_errors : List ExpectedError)
    (combined : List Char) : Option VerifyFailure :=
  match exitCheck exp_total returncode combined with
  | some f => some f
  | none =>
    match countCheck exp_total act_errors combined with
    | some f => some f
    | none =>
      match pairCheck (to_count_map exp_errors) (to_count_map act_errors) combined with
      | some f => some f
      | none =>
        match colCheck (to_count_map exp_errors) (to_count_map act_errors) combined with
        | some f => some f
        | none => _assert_message_contains exp_errors act_errors combined

/-- `verify_file`'s comparison applied to the parsed linter output. -/
def verify_file_checks (exp_total : Nat) (exp_errors : List ExpectedError)
    (returncode : Int) (combined : List Char) (file_label : List Char) :
    Option VerifyFailure :=
  verify_checks exp_total exp_errors returncode
    (parse_markdownlint_output combined file_label) combined

/-- The final report of `main`: either a consolidated failure report
(count of failing files plus each failure's message) or a success
message. -/
inductive SuiteReport where
  | failed (count : Nat) (messages : List VerifyFailure)
  | allPassed
deriving DecidableEq

/-- The fixture loop of `main`: each fixture's outcome (`none` = verified,
`some f` = a failure was caught) appends its message to `failures`. -/
def suite_loop (outcomes : List (Option VerifyFailure)) : List VerifyFailure :=
  outcomes.foldl
    (fun failures o =>
      match o with
      | some e => failures ++ [e]
      | none => failures)
    []

/-- `main` after the loop: exit status 1 with the consolidated report if
any failure was recorded, else exit status 0 with the success message. -/
def main_run (outcomes : List (Option VerifyFailure)) : Nat × SuiteReport :=
  let failures := suite_loop outcomes
  if failures = [] then (0, .allPassed)
  else (1, .failed failures.length failures)

end VerifyFixtures

/-! Helper lemmas. -/

namespace VerifyFixtures

theorem splitlinesGo_no_term (s : List Char) (h : ∀ c ∈ s, isLineTerm c = false) :
    ∀ acc, splitlinesGo acc s = if acc = [] ∧ s = [] then [] else [acc.reverse ++ s] := by
  induction s with
  | nil => intro acc; by_cases h' : acc = [] <;> simp [splitlinesGo, h']
  | cons c rest ih =>
    intro acc
    have hc : isLineTerm c = false := h c (by simp)
    have hcr : c ≠ '\r' := by intro e; subst e; simp [isLineTerm] at hc
    have hrest : ∀ x ∈ rest, isLineTerm x = false := fun x hx => h x (by simp [hx])
    have step : splitlinesGo acc (c :: rest) = splitlinesGo (c :: acc) rest := by
      cases rest with
      | nil => simp [splitlinesGo, hc]
      | cons c2 rest2 =>
        rw [splitlinesGo]
        · simp [hc]
        · exact fun _ e _ => absurd e hcr
    rw [step, ih hrest (c :: acc)]
    simp

theorem splitlines_no_term (s : List Char) (h : ∀ c ∈ s, isLineTerm c = false)
    (hne : s ≠ []) : splitlines s = [s] := by
  rw [splitlines, splitlinesGo_no_term s h []]
  simp [hne]

theorem cmLookup_bump (m : List ((Int × List Char × Option Int) × Nat))
    (k k' : Int × List Char × Option Int) :
    cmLookup (bump m k) k' =
      if k' = k then some ((cmLookup m k').getD 0 + 1) else cmLookup m k' := by
  induction m with
  | nil =>
    by_cases h : k' = k
    · subst h; simp [bump, cmLookup]
    · simp [bump, cmLookup, h, Ne.symm h]
  | cons kc rest ih =>
    obtain ⟨k0, c0⟩ := kc
    by_cases h0 : k0 = k
    · subst h0
      by_cases h1 : k0 = k'
      · subst h1; simp [bump, cmLookup]
      · simp [bump, cmLookup, h1, Ne.symm h1]
    · by_cases h1 : k0 = k'
      · subst h1
        simp [bump, cmLookup, h0, Ne.symm h0]
      · simp [bump, cmLookup, h0, h1, ih]

theorem cmLookup_foldl (l : List ExpectedError) :
    ∀ (acc : List ((Int × List Char × Option Int) × Nat)) (k : Int × List Char × Option Int),
      cmLookup (l.foldl (fun m e => bump m (_count_map_key e)) acc) k =
        match cmLookup acc k with
        | some n => some (n + l.countP (fun e => decide (_count_map_key e = k)))
        | none =>
            if l.countP (fun e => decide (_count_map_key e = k)) = 0 then none
            else some (l.countP (fun e => decide (_count_map_key e = k)))
    := by
  induction l with
  | nil =>
    intro acc k
    cases h : cmLookup acc k <;> simp [h]
  | cons e rest ih =>
    intro acc k
    rw [List.foldl_cons, ih, cmLookup_bump]
    by_cases hk : k = _count_map_key e
    · subst hk
      cases h : cmLookup acc (_count_map_key e) <;>
        simp [h, List.countP_cons] <;> omega
    · have hk' : ¬ (_count_map_key e = k) := Ne.symm hk
      cases h : cmLookup acc k <;> simp [h, hk, List.countP_cons, hk']

theorem cmLookup_to_count_map (l : List ExpectedError)
    (k : Int × List Char × Option Int) :
    cmLookup (to_count_map l) k =
      if l.countP (fun e => decide (_count_map_key e = k)) = 0 then none
      else some (l.countP (fun e => decide (_count_map_key e = k))) := by
  rw [to_count_map, cmLookup_foldl]
  simp [cmLookup]

theorem sumCounts_bump (m : List ((Int × List Char × Option Int) × Nat))
    (k : Int × List Char × Option Int) :
    sumCounts (bump m k) = sumCounts m + 1 := by
  induction m with
  | nil => simp [bump, sumCounts]
  | cons kc rest ih =>
    obtain ⟨k0, c0⟩ := kc
    by_cases h : k0 = k <;> simp [bump, sumCounts, h] <;>
      simp [sumCounts] at ih <;> omega

theorem sumCounts_to_count_map (l : List ExpectedError) :
    sumCounts (to_count_map l) = l.length := by
  have key : ∀ acc, sumCounts (l.foldl (fun m e => bump m (_count_map_key e)) acc) =
      sumCounts acc + l.length := by
    induction l with
    | nil => intro acc; simp
    | cons e rest ih =>
      intro acc
      rw [List.foldl_cons, ih, sumCounts_bump]
      simp; omega
  rw [to_count_map, key]
  simp [sumCounts]

theorem firstFail_eq_none_iff {α β : Type} (f : α → Option β) (l : List α) :
    firstFail f l = none ↔ ∀ x ∈ l, f x = none := by
  induction l with
  | nil => simp [firstFail]
  | cons x rest ih =>
    cases h : f x <;> simp [firstFail, h, ih]

theorem firstFail_some_exists {α β : Type} (f : α → Option β) (l : List α) (b : β)
    (h : firstFail f l = some b) : ∃ x ∈ l, f x = some b := by
  induction l with
  | nil => simp [firstFail] at h
  | cons x rest ih =>
    cases hx : f x with
    | some b' =>
      simp [firstFail, hx] at h
      exact ⟨x, by simp, by rw [hx, h]⟩
    | none =>
      simp [firstFail, hx] at h
      obtain ⟨y, hy, hfy⟩ := ih h
      exact ⟨y, by simp [hy], hfy⟩

end VerifyFixtures

namespace VerifyFixtures

theorem startsWithL_iff (s p : List Char) :
    startsWithL s p = true ↔ ∃ t, s = p ++ t := by
  induction p generalizing s with
  | nil => simp [startsWithL]
  | cons c cs ih =>
    cases s with
    | nil => simp [startsWithL]
    | cons a as =>
      simp only [startsWithL, Bool.and_eq_true, beq_iff_eq, ih]
      constructor
      · rintro ⟨rfl, t, rfl⟩; exact ⟨t, rfl⟩
      · rintro ⟨t, ht⟩
        injection ht with h1 h2
        exact ⟨h1, t, h2⟩

theorem containsSub_iff (hay needle : List Char) :
    containsSub hay needle = true ↔ ∃ pre post, hay = pre ++ needle ++ post := by
  induction hay with
  | nil =>
    rw [containsSub]
    constructor
    · intro h
      simp only [Bool.or_eq_true, startsWithL_iff] at h
      rcases h with ⟨t, ht⟩ | h
      · exact ⟨[], t, by simpa using ht⟩
      · simp at h
    · rintro ⟨pre, post, h⟩
      have h1 := List.append_eq_nil.mp h.symm
      have h2 := List.append_eq_nil.mp h1.1
      simp [startsWithL_iff, h2.2]
  | cons c t ih =>
    rw [containsSub]
    simp only [Bool.or_eq_true, startsWithL_iff, ih]
    constructor
    · rintro (⟨u, hu⟩ | ⟨pre, post, h⟩)
      · exact ⟨[], u, by simpa using hu⟩
      · exact ⟨c :: pre, post, by simp [h]⟩
    · rintro ⟨pre, post, h⟩
      cases pre with
      | nil => exact Or.inl ⟨post, by simpa using h⟩
      | cons p ps =>
        injection h with h1 h2
        exact Or.inr ⟨ps, post, h2⟩

theorem charToNat_inj {a b : Char} (h : a.toNat = b.toNat) : a = b :=
  Char.eq_of_val_eq (UInt32.eq_of_toBitVec_eq (BitVec.eq_of_toNat_eq h))

theorem strLt_asymm (a : List Char) : ∀ b, strLt a b = true → strLt b a = false := by
  induction a with
  | nil => intro b h; cases b <;> simp [strLt] at h ⊢
  | cons c cs ih =>
    intro b h
    cases b with
    | nil => simp [strLt] at h
    | cons d ds =>
      simp only [strLt] at h ⊢
      by_cases h1 : c.toNat < d.toNat
      · simp [h1, Nat.lt_asymm h1]
      · by_cases h2 : d.toNat < c.toNat
        · simp [h1, h2] at h
        · simp [h1, h2] at h ⊢
          exact ih ds h

theorem strLt_trans (a : List Char) :
    ∀ b c, strLt a b = true → strLt b c = true → strLt a c = true := by
  induction a with
  | nil =>
    intro b c hab hbc
    cases b with
    | nil => simp [strLt] at hab
    | cons y ys =>
      cases c with
      | nil => simp [strLt] at hbc
      | cons z zs => simp [strLt]
  | cons x xs ih =>
    intro b c hab hbc
    cases b with
    | nil => simp [strLt] at hab
    | cons y ys =>
      cases c with
      | nil => simp [strLt] at hbc
      | cons z zs =>
        simp only [strLt] at hab hbc ⊢
        by_cases h1 : x.toNat < y.toNat
        · by_cases h2 : y.toNat < z.toNat
          · simp [Nat.lt_trans h1 h2]
          · by_cases h3 : z.toNat < y.toNat
            · simp [h2, h3] at hbc
            · have : x.toNat < z.toNat := by omega
              simp [this]
        · by_cases h4 : y.toNat < x.toNat
          · simp [h1, h4] at hab
          · simp [h1, h4] at hab
            by_cases h2 : y.toNat < z.toNat
            · have : x.toNat < z.toNat := by omega
              simp [this]
            · by_cases h3 : z.toNat < y.toNat
              · simp [h2, h3] at hbc
              · simp [h2, h3] at hbc
                have h5 : ¬ x.toNat < z.toNat := by omega
                have h6 : ¬ z.toNat < x.toNat := by omega
                simp [h5, h6]
                exact ih ys zs hab hbc

theorem strLt_connex (a : List Char) :
    ∀ b, strLt a b = false → strLt b a = false → a = b := by
  induction a with
  | nil =>
    intro b h1 _
    cases b with
    | nil => rfl
    | cons y ys => simp [strLt] at h1
  | cons x xs ih =>
    intro b h1 h2
    cases b with
    | nil => simp [strLt] at h2
    | cons y ys =>
      simp only [strLt] at h1 h2
      by_cases hxy : x.toNat < y.toNat
      · simp [hxy] at h1
      · by_cases hyx : y.toNat < x.toNat
        · simp [hyx] at h2
        · have hx : x = y := charToNat_inj (by omega)
          subst hx
          simp [hxy, hyx] at h1 h2
          rw [ih ys h1 h2]

theorem pairLe_total (p q : Int × List Char) :
    pairLe p q = true ∨ pairLe q p = true := by
  unfold pairLe
  by_cases h1 : p.1 < q.1
  · left; simp [h1]
  · by_cases h2 : q.1 < p.1
    · right; simp [h1, h2]
    · by_cases h3 : strLt p.2 q.2 = true
      · left; simp [h1, h2, h3]
      · by_cases h4 : strLt q.2 p.2 = true
        · right; simp [h1, h2, h4]
        · left; simp [h1, h2, h3, h4]

theorem pairLe_antisymm (p q : Int × List Char)
    (h1 : pairLe p q = true) (h2 : pairLe q p = true) : p = q := by
  unfold pairLe at h1 h2
  by_cases ha : p.1 < q.1
  · simp [ha, Int.lt_asymm ha] at h2
  · by_cases hb : q.1 < p.1
    · simp [ha, hb] at h1
    · have hfst : p.1 = q.1 := by omega
      by_cases hc : strLt p.2 q.2 = true
      · have := strLt_asymm p.2 q.2 hc
        simp [ha, hb, hc, this] at h2
      · by_cases hd : strLt q.2 p.2 = true
        · simp [ha, hb, hc, hd] at h1
        · have hsnd : p.2 = q.2 :=
            strLt_connex p.2 q.2 (by simpa using hc) (by simpa using hd)
          exact Prod.ext hfst hsnd

theorem pairLe_trans (p q r : Int × List Char)
    (h1 : pairLe p q = true) (h2 : pairLe q r = true) : pairLe p r = true := by
  unfold pairLe at h1 h2 ⊢
  by_cases ha : p.1 < q.1 <;> by_cases hb : q.1 < r.1
  · simp [Int.lt_trans ha hb]
  · by_cases hb' : r.1 < q.1
    · simp [ha, hb, hb'] at h2
    · have : p.1 < r.1 := by omega
      simp [this]
  · by_cases ha' : q.1 < p.1
    · simp [ha, ha'] at h1
    · have : p.1 < r.1 := by omega
      simp [this]
  · by_cases ha' : q.1 < p.1
    · simp [ha, ha'] at h1
    · by_cases hb' : r.1 < q.1
      · simp [hb, hb'] at h2
      · have hpq : p.1 = q.1 := by omega
        have hqr : q.1 = r.1 := by omega
        have hpr : ¬ p.1 < r.1 := by omega
        have hrp : ¬ r.1 < p.1 := by omega
        simp [ha, ha'] at h1
        simp [hb, hb'] at h2
        simp [hpr, hrp]
        by_cases hc : strLt p.2 q.2 = true
        · by_cases hd : strLt q.2 r.2 = true
          · simp [strLt_trans p.2 q.2 r.2 hc hd]
          · have sr : strLt r.2 q.2 = false := by
              by_cases he : strLt r.2 q.2 = true
              · simp [hd, he] at h2
              · simpa using he
            have : q.2 = r.2 := strLt_connex q.2 r.2 (by simpa using hd) sr
            rw [← this]
            simp [hc]
        · have sq : strLt q.2 p.2 = false := by
            by_cases he : strLt q.2 p.2 = true
            · simp [hc, he] at h1
            · simpa using he
          have hpq2 : p.2 = q.2 := strLt_connex p.2 q.2 (by simpa using hc) sq
          rw [hpq2]
          exact h2

end VerifyFixtures

namespace VerifyFixtures

theorem mem_insertPair (x p : Int × List Char) (l : List (Int × List Char)) :
    x ∈ insertPair p l ↔ x = p ∨ x ∈ l := by
  induction l with
  | nil => simp [insertPair]
  | cons q rest ih =>
    by_cases h : pairLe p q = true
    · simp [insertPair, h]
    · simp only [insertPair, if_neg h, List.mem_cons, ih]
      tauto

theorem pairwise_insertPair (p : Int × List Char) (l : List (Int × List Char))
    (h : l.Pairwise (fun a b => pairLe a b = true)) :
    (insertPair p l).Pairwise (fun a b => pairLe a b = true) := by
  induction l with
  | nil => simp [insertPair]
  | cons q rest ih =>
    rcases List.pairwise_cons.mp h with ⟨hq, hrest⟩
    by_cases hpq : pairLe p q = true
    · rw [insertPair, if_pos hpq]
      refine List.pairwise_cons.mpr ⟨?_, h⟩
      intro y hy
      rcases List.mem_cons.mp hy with rfl | hy'
      · exact hpq
      · exact pairLe_trans p q y hpq (hq y hy')
    · rw [insertPair, if_neg hpq]
      refine List.pairwise_cons.mpr ⟨?_, ih hrest⟩
      intro y hy
      rcases (mem_insertPair y p rest).mp hy with heq | hy'
      · rw [heq]
        rcases pairLe_total p q with h' | h'
        · exact absurd h' hpq
        · exact h'
      · exact hq y hy'

theorem mem_sortPairs (x : Int × List Char) (l : List (Int × List Char)) :
    x ∈ sortPairs l ↔ x ∈ l := by
  induction l with
  | nil => simp [sortPairs]
  | cons p rest ih => simp [sortPairs, mem_insertPair, ih]

theorem pairwise_sortPairs (l : List (Int × List Char)) :
    (sortPairs l).Pairwise (fun a b => pairLe a b = true) := by
  induction l with
  | nil => simp [sortPairs]
  | cons p rest ih => exact pairwise_insertPair p (sortPairs rest) ih

theorem firstFail_min {β : Type} (f : (Int × List Char) → Option β)
    (l : List (Int × List Char))
    (hsorted : l.Pairwise (fun a b => pairLe a b = true))
    (x : Int × List Char) (b : β) (hx : x ∈ l) (hfx : f x = some b)
    (hmin : ∀ y ∈ l, f y ≠ none → pairLe x y = true) :
    firstFail f l = some b := by
  induction l with
  | nil => simp at hx
  | cons z rest ih =>
    rcases List.pairwise_cons.mp hsorted with ⟨hz, hrest⟩
    cases hfz : f z with
    | some c =>
      have hxz : x = z := by
        rcases List.mem_cons.mp hx with rfl | hx'
        · rfl
        · exact pairLe_antisymm x z
            (hmin z (by simp) (by simp [hfz])) (hz x hx')
      subst hxz
      rw [firstFail, hfz]
      rw [hfx] at hfz
      exact hfz.symm ▸ rfl
    | none =>
      have hx' : x ∈ rest := by
        rcases List.mem_cons.mp hx with rfl | hx'
        · rw [hfx] at hfz; exact absurd hfz (by simp)
        · exact hx'
      rw [firstFail, hfz]
      exact ih hrest hx' (fun y hy hfy => hmin y (by simp [hy]) hfy)

theorem mem_keys_bump (m : List ((Int × List Char × Option Int) × Nat))
    (k x : Int × List Char × Option Int)
    (h : x ∈ (bump m k).map Prod.fst) : x = k ∨ x ∈ m.map Prod.fst := by
  induction m with
  | nil => simp [bump] at h; simp [h]
  | cons kc rest ih =>
    obtain ⟨k0, c0⟩ := kc
    by_cases h0 : k0 = k
    · subst h0
      simp [bump] at h
      simp [h]
    · rw [bump, if_neg h0] at h
      simp only [List.map_cons, List.mem_cons] at h
      rcases h with rfl | h'
      · right; simp
      · rcases ih h' with rfl | h2
        · left; rfl
        · right; simp [h2]

theorem nodup_keys_bump (m : List ((Int × List Char × Option Int) × Nat))
    (k : Int × List Char × Option Int)
    (h : (m.map Prod.fst).Nodup) : ((bump m k).map Prod.fst).Nodup := by
  induction m with
  | nil => simp [bump]
  | cons kc rest ih =>
    obtain ⟨k0, c0⟩ := kc
    simp only [List.map_cons, List.nodup_cons] at h
    by_cases h0 : k0 = k
    · subst h0
      rw [bump, if_pos rfl]
      simp only [List.map_cons, List.nodup_cons]
      exact h
    · rw [bump, if_neg h0]
      simp only [List.map_cons, List.nodup_cons]
      refine ⟨?_, ih h.2⟩
      intro hmem
      rcases mem_keys_bump rest k k0 hmem with rfl | h2
      · exact h0 rfl
      · exact h.1 h2

theorem nodup_keys_to_count_map (l : List ExpectedError) :
    ((to_count_map l).map Prod.fst).Nodup := by
  have key : ∀ acc, (acc.map Prod.fst).Nodup →
      ((l.foldl (fun m e => bump m (_count_map_key e)) acc).map Prod.fst).Nodup := by
    induction l with
    | nil => intro acc h; simpa using h
    | cons e rest ih =>
      intro acc h
      rw [List.foldl_cons]
      exact ih _ (nodup_keys_bump acc (_count_map_key e) h)
  exact key [] (by simp)

theorem cmLookup_of_mem (m : List ((Int × List Char × Option Int) × Nat))
    (hnd : (m.map Prod.fst).Nodup) (kc : (Int × List Char × Option Int) × Nat)
    (h : kc ∈ m) : cmLookup m kc.1 = some kc.2 := by
  induction m with
  | nil => simp at h
  | cons kc0 rest ih =>
    obtain ⟨k0, c0⟩ := kc0
    simp only [List.map_cons, List.nodup_cons] at hnd
    rcases List.mem_cons.mp h with rfl | h'
    · simp [cmLookup]
    · have hne : k0 ≠ kc.1 := by
        intro e
        exact hnd.1 (e ▸ List.mem_map_of_mem Prod.fst h')
      rw [cmLookup, if_neg hne]
      exact ih hnd.2 h'

end VerifyFixtures

/-! Claim theorems. -/

namespace VerifyFixtures

theorem suite_loop_eq (oc : List (Option VerifyFailure)) :
    suite_loop oc = oc.filterMap id := by
  have key : ∀ acc, oc.foldl
      (fun failures o =>
        match o with
        | some e => failures ++ [e]
        | none => failures) acc = acc ++ oc.filterMap id := by
    induction oc with
    | nil => intro acc; simp
    | cons o rest ih =>
      intro acc
      cases o with
      | some e => simp [List.foldl_cons, ih, List.filterMap_cons]
      | none => simp [List.foldl_cons, ih, List.filterMap_cons]
  rw [suite_loop, key]
  simp

/-- C1 (counterexample): a payload whose explicit `total` (5) differs from
the length of its `errors` list (0) is parsed successfully rather than
rejected: the loader never reads the `total` field. -/
theorem c1_counterexample :
    parse_expectations_from_data
      (Val.vmap [("total".toList, Val.vint 5), ("errors".toList, Val.vlist [])])
      "f.md".toList = .ok (0, []) := rfl

/-- C1 (amended): `parse_expectations_from_data` derives the total as the
length of the parsed `errors` list and ignores any explicit `total`
entry, so a successful parse always satisfies `total = len(errors)` and
adding a `total` entry never changes the result. -/
theorem c1_total_derived :
    (∀ data fp t es, parse_expectations_from_data data fp = .ok (t, es) →
        t = es.length) ∧
    (∀ entries v fp,
        parse_expectations_from_data (Val.vmap (("total".toList, v) :: entries)) fp =
          parse_expectations_from_data (Val.vmap entries) fp) := by
  constructor
  · intro data fp t es h
    unfold parse_expectations_from_data at h
    split at h
    · split at h
      · split at h
        · exact absurd h (by simp)
        · simp only [Except.ok.injEq, Prod.mk.injEq] at h
          rw [← h.1, ← h.2]
      · exact absurd h (by simp)
    · exact absurd h (by simp)
  · intro entries v fp
    have hne : ("total".toList : List Char) ≠ "errors".toList := by decide
    simp [parse_expectations_from_data, pyGet, pyLookup, hne]

/-- Witness for `c1_total_derived` at concrete payloads. -/
theorem c1_total_derived_witness :
    (0 : Nat) = ([] : List ExpectedError).length ∧
    parse_expectations_from_data (Val.vmap [("total".toList, Val.vint 5)]) "f.md".toList =
      parse_expectations_from_data (Val.vmap []) "f.md".toList :=
  ⟨c1_total_derived.1 (Val.vmap [("errors".toList, Val.vlist [])]) "f.md".toList 0 [] rfl,
   c1_total_derived.2 [] (Val.vint 5) "f.md".toList⟩

/-- C9: `to_count_map` is order-independent (any permutation of the
records yields a map with identical lookups) and the counts sum to the
number of input records, duplicate keys incrementing one shared count. -/
theorem c9_count_map_perm_sum :
    (∀ l₁ l₂ : List ExpectedError, l₁.Perm l₂ →
        ∀ k, cmLookup (to_count_map l₁) k = cmLookup (to_count_map l₂) k) ∧
    (∀ l : List ExpectedError, sumCounts (to_count_map l) = l.length) := by
  constructor
  · intro l₁ l₂ hperm k
    rw [cmLookup_to_count_map, cmLookup_to_count_map, hperm.countP_eq]
  · exact sumCounts_to_count_map

/-- Witness for `c9_count_map_perm_sum` on a concrete two-record list. -/
theorem c9_count_map_perm_sum_witness :
    (cmLookup (to_count_map
        [⟨1, ['X'], none, none, none⟩, ⟨2, ['Y'], none, none, none⟩]) (1, ['X'], none) =
      cmLookup (to_count_map
        [⟨2, ['Y'], none, none, none⟩, ⟨1, ['X'], none, none, none⟩]) (1, ['X'], none)) ∧
    sumCounts (to_count_map
      [⟨1, ['X'], none, none, none⟩, ⟨2, ['Y'], none, none, none⟩]) = 2 :=
  ⟨c9_count_map_perm_sum.1 _ _ (by decide) _, c9_count_map_perm_sum.2 _⟩

/-- C7: the suite runner's exit status is 1 exactly when some fixture's
verification failed; with no failures it reports success and exit 0; and
when failures exist the consolidated report carries the failure count and
every recorded failure's message (each failing fixture is attempted and
recorded, not just the first). -/
theorem c7_suite_runner :
    (∀ oc : List (Option VerifyFailure), (main_run oc).1 = 1 ↔ ∃ o ∈ oc, o ≠ none) ∧
    (∀ oc : List (Option VerifyFailure), (∀ o ∈ oc, o = none) →
        main_run oc = (0, SuiteReport.allPassed)) ∧
    (∀ (oc : List (Option VerifyFailure)) (f : VerifyFailure), some f ∈ oc →
        main_run oc = (1, .failed (oc.filterMap id).length (oc.filterMap id)) ∧
        f ∈ oc.filterMap id) := by
  have hnil : ∀ oc : List (Option VerifyFailure),
      oc.filterMap id = [] ↔ ∀ o ∈ oc, o = none := by
    intro oc
    rw [List.filterMap_eq_nil_iff]
    constructor
    · intro h o ho; exact h o ho
    · intro h o ho; rw [h o ho]; rfl
  refine ⟨?_, ?_, ?_⟩
  · intro oc
    rw [main_run, suite_loop_eq]
    by_cases h : oc.filterMap id = []
    · simp only [h, if_pos rfl]
      constructor
      · intro h0; exact absurd h0 (by norm_num)
      · rintro ⟨o, ho, hne⟩
        exact absurd ((hnil oc).mp h o ho) hne
    · simp only [h, if_neg h]
      constructor
      · intro _
        by_contra hc
        push_neg at hc
        exact h ((hnil oc).mpr hc)
      · intro _; rfl
  · intro oc h
    rw [main_run, suite_loop_eq]
    rw [if_pos ((hnil oc).mpr h)]
  · intro oc f hf
    have hmem : f ∈ oc.filterMap id := List.mem_filterMap.mpr ⟨some f, hf, rfl⟩
    have hne : oc.filterMap id ≠ [] := by
      intro h0; rw [h0] at hmem; simp at hmem
    rw [main_run, suite_loop_eq, if_neg hne]
    exact ⟨rfl, hmem⟩

/-- Witness for `c7_suite_runner` on concrete outcome lists. -/
theorem c7_suite_runner_witness :
    main_run [] = (0, SuiteReport.allPassed) ∧
    (main_run [some (VerifyFailure.errorCount 0 1 []), none] =
        (1, .failed ([some (VerifyFailure.errorCount 0 1 []), none].filterMap id).length
          ([some (VerifyFailure.errorCount 0 1 []), none].filterMap id)) ∧
      VerifyFailure.errorCount 0 1 [] ∈
        [some (VerifyFailure.errorCount 0 1 []), none].filterMap id) :=
  ⟨c7_suite_runner.2.1 [] (by simp),
   c7_suite_runner.2.2 [some (VerifyFailure.errorCount 0 1 []), none]
     (VerifyFailure.errorCount 0 1 []) (by simp)⟩

end VerifyFixtures

namespace VerifyFixtures

theorem countCheck_some_shape (et : Nat) (ae : List ExpectedError)
    (cb : List Char) (f : VerifyFailure) (h : countCheck et ae cb = some f) :
    f = .errorCount et ae.length cb := by
  unfold countCheck at h
  split at h
  · simp only [Option.some.injEq] at h
    exact h.symm
  · exact absurd h (by simp)

theorem pairCheck_some_shape (em am : List ((Int × List Char × Option Int) × Nat))
    (cb : List Char) (f : VerifyFailure) (h : pairCheck em am cb = some f) :
    ∃ l r e a, f = .pairMismatch l r e a cb := by
  obtain ⟨p, _, hfp⟩ := firstFail_some_exists _ _ _ h
  dsimp only at hfp
  split at hfp
  · simp only [Option.some.injEq] at hfp
    exact ⟨p.1, p.2, _, _, hfp.symm⟩
  · exact absurd hfp (by simp)

theorem colCheck_some_shape (em am : List ((Int × List Char × Option Int) × Nat))
    (cb : List Char) (f : VerifyFailure) (h : colCheck em am cb = some f) :
    ∃ l r col e a, f = .columnShortfall l r col e a cb := by
  obtain ⟨kc, _, hfp⟩ := firstFail_some_exists _ _ _ h
  dsimp only at hfp
  split at hfp
  · exact absurd hfp (by simp)
  · split at hfp
    · simp only [Option.some.injEq] at hfp
      exact ⟨kc.1.1, kc.1.2.1, _, kc.2, _, hfp.symm⟩
    · exact absurd hfp (by simp)

theorem msg_some_shape (ee ae : List ExpectedError) (cb : List Char)
    (f : VerifyFailure) (h : _assert_message_contains ee ae cb = some f) :
    (∃ l r s, f = .msgNoCandidate l r s cb) ∨
    (∃ l r s m, f = .msgNotFound l r s m cb) := by
  induction ee with
  | nil => simp [_assert_message_contains] at h
  | cons exp rest ih =>
    rw [_assert_message_contains] at h
    rcases hmc : exp.message_contains with _ | s
    · rw [hmc] at h
      exact ih h
    · rw [hmc] at h
      rcases hcand : candidatesFor ae exp with _ | ⟨c, cs⟩
      · rw [hcand] at h
        dsimp only at h
        simp only [Option.some.injEq] at h
        exact Or.inl ⟨exp.line, exp.rule, s, h.symm⟩
      · rw [hcand] at h
        dsimp only at h
        split at h
        · exact ih h
        · simp only [Option.some.injEq] at h
          exact Or.inr ⟨exp.line, exp.rule, s, c.message, h.symm⟩

theorem verify_checks_none_parts (et : Nat) (ee : List ExpectedError) (rc : Int)
    (ae : List ExpectedError) (cb : List Char)
    (h : verify_checks et ee rc ae cb = none) :
    exitCheck et rc cb = none ∧ countCheck et ae cb = none ∧
    pairCheck (to_count_map ee) (to_count_map ae) cb = none ∧
    colCheck (to_count_map ee) (to_count_map ae) cb = none ∧
    _assert_message_contains ee ae cb = none := by
  rw [verify_checks] at h
  split at h
  · exact absurd h (by simp)
  · split at h
    · exact absurd h (by simp)
    · split at h
      · exact absurd h (by simp)
      · split at h
        · exact absurd h (by simp)
        · refine ⟨by assumption, by assumption, by assumption, by assumption, h⟩

theorem verify_checks_some_cases (et : Nat) (ee : List ExpectedError) (rc : Int)
    (ae : List ExpectedError) (cb : List Char) (f : VerifyFailure)
    (h : verify_checks et ee rc ae cb = some f) :
    exitCheck et rc cb = some f ∨ countCheck et ae cb = some f ∨
    pairCheck (to_count_map ee) (to_count_map ae) cb = some f ∨
    colCheck (to_count_map ee) (to_count_map ae) cb = some f ∨
    _assert_message_contains ee ae cb = some f := by
  rw [verify_checks] at h
  split at h
  · next heq => exact Or.inl (by rw [heq, h])
  · split at h
    · next heq => exact Or.inr (Or.inl (by rw [heq, h]))
    · split at h
      · next heq => exact Or.inr (Or.inr (Or.inl (by rw [heq, h])))
      · split at h
        · next heq => exact Or.inr (Or.inr (Or.inr (Or.inl (by rw [heq, h]))))
        · exact Or.inr (Or.inr (Or.inr (Or.inr h)))

/-- C5: the exit-code policy is `verify_file`'s first check: with
`exp_ok = (expected total = 0)` and `act_ok = (exit code = 0)`, the
comparison fails with the exit-code message (carrying the expected
disposition, the exit code, and the full combined output) exactly when
the two booleans differ, before any total-count, multiset, or message
check can fire. -/
theorem c5_exit_code_policy :
    (∀ (et : Nat) (ee : List ExpectedError) (rc : Int) (ae : List ExpectedError)
        (cb : List Char), ((et == 0) != (rc == 0)) = true →
        verify_checks et ee rc ae cb = some (.exitCode (et == 0) rc cb)) ∧
    (∀ (et : Nat) (ee : List ExpectedError) (rc : Int) (ae : List ExpectedError)
        (cb : List Char) (b : Bool) (g : Int) (c : List Char),
        ((et == 0) != (rc == 0)) = false →
        verify_checks et ee rc ae cb ≠ some (.exitCode b g c)) := by
  constructor
  · intro et ee rc ae cb h
    have hx : exitCheck et rc cb = some (.exitCode (et == 0) rc cb) := by
      unfold exitCheck
      rw [if_pos h]
    rw [verify_checks, hx]
  · intro et ee rc ae cb b g c h hcon
    have hx : exitCheck et rc cb = none := by
      unfold exitCheck
      rw [if_neg (by simp [h])]
    rcases verify_checks_some_cases _ _ _ _ _ _ hcon with h1 | h1 | h1 | h1 | h1
    · rw [hx] at h1
      exact absurd h1 (by simp)
    · have := countCheck_some_shape _ _ _ _ h1
      simp at this
    · obtain ⟨l, r, e', a', he⟩ := pairCheck_some_shape _ _ _ _ h1
      simp at he
    · obtain ⟨l, r, col, e', a', he⟩ := colCheck_some_shape _ _ _ _ h1
      simp at he
    · rcases msg_some_shape _ _ _ _ h1 with ⟨l, r, s, he⟩ | ⟨l, r, s, m, he⟩ <;> simp at he

/-- Witness for `c5_exit_code_policy` at concrete inputs. -/
theorem c5_exit_code_policy_witness :
    verify_checks 0 [] 1 [] [] = some (.exitCode true 1 []) ∧
    verify_checks 0 [] 0 [] [] ≠ some (.exitCode true 0 []) :=
  ⟨c5_exit_code_policy.1 0 [] 1 [] [] (by decide),
   c5_exit_code_policy.2 0 [] 0 [] [] true 0 [] (by decide)⟩

end VerifyFixtures

namespace VerifyFixtures

/-- C6: the output parser produces records only from lines prefixed by
`file_label + ":"`: the empty output parses to the empty sequence for
every label, output none of whose lines carry the prefix (even lines
matching the diagnostic pattern for another label) parses to the empty
sequence, and a prefixed line that fails the diagnostic pattern is
silently skipped, leaving the records of the remaining lines unchanged. -/
theorem c6_parser_prefix_filtering :
    (∀ label, parse_markdownlint_output [] label = []) ∧
    (∀ output label,
        (∀ l ∈ splitlines output, startsWithL l (label ++ [':']) = false) →
        parse_markdownlint_output output label = []) ∧
    (∀ (lines1 lines2 : List (List Char)) (l label : List Char),
        startsWithL l (label ++ [':']) = true → matchErrorLine l = none →
        parse_lines (lines1 ++ l :: lines2) label =
          parse_lines (lines1 ++ lines2) label) := by
  refine ⟨?_, ?_, ?_⟩
  · intro label; rfl
  · intro output label h
    rw [parse_markdownlint_output, parse_lines, List.filterMap_eq_nil_iff]
    intro a ha
    rw [lineRecord, if_neg (by simp [h a ha])]
  · intro lines1 lines2 l label hpre hmatch
    have hnone : lineRecord label l = none := by
      rw [lineRecord, if_pos hpre, hmatch]
    rw [parse_lines, parse_lines, List.filterMap_append, List.filterMap_append,
      List.filterMap_cons, hnone]

/-- Witness for `c6_parser_prefix_filtering` at concrete outputs. -/
theorem c6_parser_prefix_filtering_witness :
    parse_markdownlint_output "other.md:1 MD001 boom".toList "foo.md".toList = [] ∧
    parse_lines ["a.md:1 X y".toList, "a.md:junk".toList] "a.md".toList =
      parse_lines ["a.md:1 X y".toList] "a.md".toList :=
  ⟨c6_parser_prefix_filtering.2.1 "other.md:1 MD001 boom".toList "foo.md".toList
     (by decide),
   c6_parser_prefix_filtering.2.2 ["a.md:1 X y".toList] [] "a.md:junk".toList
     "a.md".toList (by decide) (by decide)⟩

/-- C8: records built by the expectation loader never carry `message`
(only possibly `message_contains`), and records built by the output
parser never carry `message_contains` (only possibly `message`); no
operation produces a record with both fields set. -/
theorem c8_record_field_separation :
    (∀ data fp t es, parse_expectations_from_data data fp = .ok (t, es) →
        ∀ e ∈ es, e.message = none) ∧
    (∀ output label, ∀ e ∈ parse_markdownlint_output output label,
        e.message_contains = none) := by
  have one : ∀ item idx fp e, _parse_one_error item idx fp = .ok e →
      e.message = none := by
    intro item idx fp e h
    unfold _parse_one_error at h
    repeat' split at h
    all_goals
      first
        | exact Except.noConfusion h
        | (injection h with h; rw [← h])
  have lst : ∀ fp items idx es, parseErrList fp items idx = .ok es →
      ∀ e ∈ es, e.message = none := by
    intro fp items
    induction items with
    | nil =>
      intro idx es h e he
      rw [parseErrList] at h
      simp only [Except.ok.injEq] at h
      rw [← h] at he
      simp at he
    | cons it rest ih =>
      intro idx es h e he
      rw [parseErrList] at h
      split at h
      · exact absurd h (by simp)
      · next e0 heq0 =>
        split at h
        · exact absurd h (by simp)
        · next es0 heq1 =>
          simp only [Except.ok.injEq] at h
          rw [← h] at he
          rcases List.mem_cons.mp he with rfl | he'
          · exact one _ _ _ _ heq0
          · exact ih _ _ heq1 e he'
  constructor
  · intro data fp t es h
    unfold parse_expectations_from_data at h
    split at h
    · split at h
      · split at h
        · exact absurd h (by simp)
        · next parsed hp =>
          simp only [Except.ok.injEq, Prod.mk.injEq] at h
          rw [← h.2]
          exact lst _ _ _ _ hp
      · exact absurd h (by simp)
    · exact absurd h (by simp)
  · intro output label e he
    rw [parse_markdownlint_output, parse_lines] at he
    rcases List.mem_filterMap.mp he with ⟨l, _, hrec⟩
    rw [lineRecord] at hrec
    split at hrec
    · split at hrec
      · simp only [Option.some.injEq] at hrec
        rw [← hrec]
      · exact absurd hrec (by simp)
    · exact absurd hrec (by simp)

/-- Witness for `c8_record_field_separation` at concrete inputs. -/
theorem c8_record_field_separation_witness :
    (∀ e ∈ [ExpectedError.mk 2 "MD001".toList none none none], e.message = none) ∧
    (∀ e ∈ parse_markdownlint_output "f.md:1 X boom".toList "f.md".toList,
        e.message_contains = none) :=
  ⟨c8_record_field_separation.1
     (Val.vmap [("errors".toList,
        Val.vlist [Val.vmap [("line".toList, Val.vint 2),
          ("rule".toList, Val.vstr "MD001".toList)]])])
     "f.md".toList 1 [ExpectedError.mk 2 "MD001".toList none none none] rfl,
   c8_record_field_separation.2 "f.md:1 X boom".toList "f.md".toList⟩

end VerifyFixtures

namespace VerifyFixtures

/-- C2: whenever `verify_file`'s comparison succeeds, every `(line, rule)`
pair appearing in either count map has equal expected and actual counts
summed over column variants; and once the exit-code and total-count
checks pass, the first mismatching pair in sorted pair order is reported
with both summed counts. -/
theorem c2_pair_count_equality :
    (∀ (et : Nat) (ee : List ExpectedError) (rc : Int) (ae : List ExpectedError)
        (cb : List Char), verify_checks et ee rc ae cb = none →
        ∀ p ∈ pairsOf (to_count_map ee) (to_count_map ae),
          sumLR (to_count_map ee) p.1 p.2 = sumLR (to_count_map ae) p.1 p.2) ∧
    (∀ (et : Nat) (ee : List ExpectedError) (rc : Int) (ae : List ExpectedError)
        (cb : List Char) (l : Int) (r : List Char),
        exitCheck et rc cb = none → countCheck et ae cb = none →
        (l, r) ∈ pairsOf (to_count_map ee) (to_count_map ae) →
        sumLR (to_count_map ee) l r ≠ sumLR (to_count_map ae) l r →
        (∀ q ∈ pairsOf (to_count_map ee) (to_count_map ae),
            sumLR (to_count_map ee) q.1 q.2 ≠ sumLR (to_count_map ae) q.1 q.2 →
            pairLe (l, r) q = true) →
        verify_checks et ee rc ae cb =
          some (.pairMismatch l r (sumLR (to_count_map ee) l r)
            (sumLR (to_count_map ae) l r) cb)) := by
  constructor
  · intro et ee rc ae cb h p hp
    have hpc := (verify_checks_none_parts et ee rc ae cb h).2.2.1
    rw [pairCheck] at hpc
    have := (firstFail_eq_none_iff _ _).mp hpc p
      ((mem_sortPairs _ _).mpr hp)
    dsimp only at this
    by_cases he : sumLR (to_count_map ee) p.1 p.2 = sumLR (to_count_map ae) p.1 p.2
    · exact he
    · rw [if_pos (by simpa using he)] at this
      exact absurd this (by simp)
  · intro et ee rc ae cb l r hexit hcount hmem hne hmin
    have hpair : pairCheck (to_count_map ee) (to_count_map ae) cb =
        some (.pairMismatch l r (sumLR (to_count_map ee) l r)
          (sumLR (to_count_map ae) l r) cb) := by
      rw [pairCheck]
      apply firstFail_min _ _ (pairwise_sortPairs _) (l, r) _
        ((mem_sortPairs _ _).mpr hmem)
      · dsimp only
        rw [if_pos (by simpa using hne)]
      · intro y hy hfy
        apply hmin y ((mem_sortPairs _ _).mp hy)
        intro heq
        apply hfy
        dsimp only
        rw [if_neg (by simpa using heq)]
    rw [verify_checks, hexit, hcount, hpair]

/-- Witness for `c2_pair_count_equality` at concrete inputs. -/
theorem c2_pair_count_equality_witness :
    (∀ p ∈ pairsOf (to_count_map []) (to_count_map []),
        sumLR (to_count_map []) p.1 p.2 = sumLR (to_count_map []) p.1 p.2) ∧
    verify_checks 1 [⟨1, ['X'], none, none, none⟩] 1
        [⟨2, ['Y'], none, none, some []⟩] [] =
      some (.pairMismatch 1 ['X']
        (sumLR (to_count_map [⟨1, ['X'], none, none, none⟩]) 1 ['X'])
        (sumLR (to_count_map [⟨2, ['Y'], none, none, some []⟩]) 1 ['X']) []) :=
  ⟨c2_pair_count_equality.1 0 [] 0 [] [] rfl,
   c2_pair_count_equality.2 1 [⟨1, ['X'], none, none, none⟩] 1
     [⟨2, ['Y'], none, none, some []⟩] [] 1 ['X']
     (by decide) (by decide) (by decide) (by decide) (by decide)⟩

/-- C3: whenever `verify_file`'s comparison succeeds, every expected key
that pins a column has at least its expected count present at that exact
`(line, rule, column)` key in the actual count map; and once the
earlier checks pass, a shortfall fails the verification reporting the
offending key with both the expected and the actual counts. -/
theorem c3_column_sufficiency :
    (∀ (et : Nat) (ee : List ExpectedError) (rc : Int) (ae : List ExpectedError)
        (cb : List Char), verify_checks et ee rc ae cb = none →
        ∀ kc ∈ to_count_map ee, ∀ col : Int, kc.1.2.2 = some col →
          kc.2 ≤ (cmLookup (to_count_map ae) kc.1).getD 0) ∧
    (∀ (et : Nat) (ee : List ExpectedError) (rc : Int) (ae : List ExpectedError)
        (cb : List Char),
        exitCheck et rc cb = none → countCheck et ae cb = none →
        pairCheck (to_count_map ee) (to_count_map ae) cb = none →
        (∃ kc ∈ to_count_map ee, kc.1.2.2 ≠ none ∧
            (cmLookup (to_count_map ae) kc.1).getD 0 < kc.2) →
        ∃ (l : Int) (r : List Char) (col : Int) (ec ac : Nat),
          verify_checks et ee rc ae cb = some (.columnShortfall l r col ec ac cb) ∧
          cmLookup (to_count_map ee) (l, r, some col) = some ec ∧
          (cmLookup (to_count_map ae) (l, r, some col)).getD 0 = ac ∧ ac < ec) := by
  constructor
  · intro et ee rc ae cb h kc hkc col hcol
    have hcc := (verify_checks_none_parts et ee rc ae cb h).2.2.2.1
    rw [colCheck] at hcc
    have := (firstFail_eq_none_iff _ _).mp hcc kc hkc
    dsimp only at this
    rw [hcol] at this
    dsimp only at this
    by_cases hle : kc.2 ≤ (cmLookup (to_count_map ae) kc.1).getD 0
    · exact hle
    · rw [if_pos (by omega)] at this
      exact absurd this (by simp)
  · intro et ee rc ae cb hexit hcount hpair hshort
    have hne : colCheck (to_count_map ee) (to_count_map ae) cb ≠ none := by
      intro h0
      obtain ⟨kc, hkc, hcol, hlt⟩ := hshort
      have := (firstFail_eq_none_iff _ _).mp (by rw [colCheck] at h0; exact h0) kc hkc
      dsimp only at this
      rcases hc : kc.1.2.2 with _ | col
      · exact hcol hc
      · rw [hc] at this
        dsimp only at this
        rw [if_pos hlt] at this
        exact absurd this (by simp)
    rcases hsome : colCheck (to_count_map ee) (to_count_map ae) cb with _ | f
    · exact absurd hsome hne
    · obtain ⟨kc, hkc, hfkc⟩ := firstFail_some_exists _ _ _ (by rw [colCheck] at hsome; exact hsome)
      dsimp only at hfkc
      rcases hc : kc.1.2.2 with _ | col
      · rw [hc] at hfkc
        dsimp only at hfkc
        exact Option.noConfusion hfkc
      · rw [hc] at hfkc
        dsimp only at hfkc
        split at hfkc
        · next hgt =>
          simp only [Option.some.injEq] at hfkc
          refine ⟨kc.1.1, kc.1.2.1, col, kc.2,
            (cmLookup (to_count_map ae) kc.1).getD 0, ?_, ?_, ?_, hgt⟩
          · rw [verify_checks, hexit, hcount, hpair, hsome, ← hfkc]
          · have hkey : kc.1 = (kc.1.1, kc.1.2.1, some col) := by
              rw [← hc]
            rw [← hkey]
            exact cmLookup_of_mem _ (nodup_keys_to_count_map ee) kc hkc
          · have hkey : kc.1 = (kc.1.1, kc.1.2.1, some col) := by
              rw [← hc]
            rw [← hkey]
        · exact absurd hfkc (by simp)

/-- Witness for `c3_column_sufficiency`: comparator scenario C (two
expected occurrences at line 1 rule X column 5, actual output one at
column 5 and one at column 10) fails with the column-specific shortfall. -/
theorem c3_column_sufficiency_witness :
    (∀ kc ∈ to_count_map ([] : List ExpectedError), ∀ col : Int,
        kc.1.2.2 = some col → kc.2 ≤ (cmLookup (to_count_map []) kc.1).getD 0) ∧
    (∃ (l : Int) (r : List Char) (col : Int) (ec ac : Nat),
      verify_checks 2
          [⟨1, ['X'], some 5, none, none⟩, ⟨1, ['X'], some 5, none, none⟩] 1
          [⟨1, ['X'], some 5, none, some []⟩, ⟨1, ['X'], some 10, none, some []⟩]
          [] = some (.columnShortfall l r col ec ac []) ∧
      cmLookup (to_count_map
          [⟨1, ['X'], some 5, none, none⟩, ⟨1, ['X'], some 5, none, none⟩])
          (l, r, some col) = some ec ∧
      (cmLookup (to_count_map
          [⟨1, ['X'], some 5, none, some []⟩, ⟨1, ['X'], some 10, none, some []⟩])
          (l, r, some col)).getD 0 = ac ∧ ac < ec) :=
  ⟨c3_column_sufficiency.1 0 [] 0 [] [] rfl,
   c3_column_sufficiency.2 2
     [⟨1, ['X'], some 5, none, none⟩, ⟨1, ['X'], some 5, none, none⟩] 1
     [⟨1, ['X'], some 5, none, some []⟩, ⟨1, ['X'], some 10, none, some []⟩] []
     (by decide) (by decide) (by decide) (by decide)⟩

end VerifyFixtures

namespace VerifyFixtures

/-- C4: `_assert_message_contains` succeeds exactly when every expected
record carrying `message_contains` has some candidate actual record
(same line and rule, and same column when the expectation pins one)
whose message contains that string as a literal substring; on failure it
reports, for some expected record with substring `s`, either the absence
of any candidate, or (when candidates exist but none contain `s`) the
substring together with the first candidate's message. -/
theorem c4_message_contains :
    (∀ (ee ae : List ExpectedError) (cb : List Char),
        _assert_message_contains ee ae cb = none ↔
        ∀ exp ∈ ee, ∀ s, exp.message_contains = some s →
          ∃ a ∈ candidatesFor ae exp, ∃ pre post,
            a.message.getD [] = pre ++ s ++ post) ∧
    (∀ (ee ae : List ExpectedError) (cb : List Char) (f : VerifyFailure),
        _assert_message_contains ee ae cb = some f →
        ∃ exp ∈ ee, ∃ s, exp.message_contains = some s ∧
          ((candidatesFor ae exp = [] ∧
              f = .msgNoCandidate exp.line exp.rule s cb) ∨
           (∃ c cs, candidatesFor ae exp = c :: cs ∧
              (∀ a ∈ c :: cs, ¬ ∃ pre post,
                  a.message.getD [] = pre ++ s ++ post) ∧
              f = .msgNotFound exp.line exp.rule s c.message cb))) := by
  constructor
  · intro ee ae cb
    induction ee with
    | nil => simp [_assert_message_contains]
    | cons exp rest ih =>
      rw [_assert_message_contains]
      rcases hmc : exp.message_contains with _ | s
      · dsimp only
        rw [ih]
        constructor
        · intro h e he s hs
          rcases List.mem_cons.mp he with rfl | he'
          · rw [hmc] at hs
            exact absurd hs (by simp)
          · exact h e he' s hs
        · intro h e he s hs
          exact h e (by simp [he]) s hs
      · dsimp only
        rcases hcand : candidatesFor ae exp with _ | ⟨c, cs⟩
        · dsimp only
          constructor
          · intro h
            exact absurd h (by simp)
          · intro h
            obtain ⟨a, ha, _⟩ := h exp (by simp) s hmc
            rw [hcand] at ha
            exact absurd ha (by simp)
        · dsimp only
          split
          · next hany =>
            rw [ih]
            constructor
            · intro h e he s' hs'
              rcases List.mem_cons.mp he with rfl | he'
              · rw [hmc] at hs'
                injection hs' with hs'
                subst hs'
                rw [hcand]
                obtain ⟨a, ha, hca⟩ := List.any_eq_true.mp hany
                exact ⟨a, ha, (containsSub_iff _ _).mp hca⟩
              · exact h e he' s' hs'
            · intro h e he s' hs'
              exact h e (by simp [he]) s' hs'
          · next hany =>
            constructor
            · intro h
              exact absurd h (by simp)
            · intro h
              obtain ⟨a, ha, pre, post, hsub⟩ := h exp (by simp) s hmc
              rw [hcand] at ha
              exact absurd
                (List.any_eq_true.mpr
                  ⟨a, ha, (containsSub_iff _ _).mpr ⟨pre, post, hsub⟩⟩)
                hany
  · intro ee ae cb f h
    induction ee with
    | nil => simp [_assert_message_contains] at h
    | cons exp rest ih =>
      rw [_assert_message_contains] at h
      rcases hmc : exp.message_contains with _ | s
      · rw [hmc] at h
        obtain ⟨e, he, hrest⟩ := ih h
        exact ⟨e, by simp [he], hrest⟩
      · rw [hmc] at h
        rcases hcand : candidatesFor ae exp with _ | ⟨c, cs⟩
        · rw [hcand] at h
          dsimp only at h
          injection h with h
          exact ⟨exp, by simp, s, hmc, Or.inl ⟨hcand, h.symm⟩⟩
        · rw [hcand] at h
          dsimp only at h
          split at h
          · obtain ⟨e, he, hrest⟩ := ih h
            exact ⟨e, by simp [he], hrest⟩
          · next hany =>
            injection h with h
            refine ⟨exp, by simp, s, hmc, Or.inr ⟨c, cs, hcand, ?_, h.symm⟩⟩
            intro a ha hcontra
            obtain ⟨pre, post, hsub⟩ := hcontra
            exact hany
              (List.any_eq_true.mpr
                ⟨a, ha, (containsSub_iff _ _).mpr ⟨pre, post, hsub⟩⟩)

/-- Witness for `c4_message_contains`: comparator scenario D (expected
substring "needle", actual message "some other text") fails naming the
substring and the first candidate's message. -/
theorem c4_message_contains_witness :
    (∀ exp ∈ ([] : List ExpectedError), ∀ s, exp.message_contains = some s →
        ∃ a ∈ candidatesFor [] exp, ∃ pre post,
          a.message.getD [] = pre ++ s ++ post) ∧
    (∃ exp ∈ [ExpectedError.mk 1 ['X'] none (some "needle".toList) none],
      ∃ s, exp.message_contains = some s ∧
        ((candidatesFor [ExpectedError.mk 1 ['X'] none none
              (some "some other text".toList)] exp = [] ∧
            VerifyFailure.msgNotFound 1 ['X'] "needle".toList
              (some "some other text".toList) [] =
              .msgNoCandidate exp.line exp.rule s []) ∨
         (∃ c cs, candidatesFor [ExpectedError.mk 1 ['X'] none none
              (some "some other text".toList)] exp = c :: cs ∧
            (∀ a ∈ c :: cs, ¬ ∃ pre post,
                a.message.getD [] = pre ++ s ++ post) ∧
            VerifyFailure.msgNotFound 1 ['X'] "needle".toList
              (some "some other text".toList) [] =
              .msgNotFound exp.line exp.rule s c.message []))) :=
  ⟨(c4_message_contains.1 [] [] []).mp rfl,
   c4_message_contains.2 [ExpectedError.mk 1 ['X'] none (some "needle".toList) none]
     [ExpectedError.mk 1 ['X'] none none (some "some other text".toList)] []
     (VerifyFailure.msgNotFound 1 ['X'] "needle".toList
       (some "some other text".toList) []) (by decide)⟩

end VerifyFixtures

namespace VerifyFixtures

theorem isPyDigit_not_space (c : Char) (h : isPyDigit c = true) :
    isPySpace c = false := by
  simp only [isPyDigit, Bool.and_eq_true, decide_eq_true_eq] at h
  by_contra hs
  rw [Bool.not_eq_false] at hs
  simp only [isPySpace, Bool.or_eq_true, beq_iff_eq] at hs
  omega

theorem isPyDigit_not_term (c : Char) (h : isPyDigit c = true) :
    isLineTerm c = false := by
  simp only [isPyDigit, Bool.and_eq_true, decide_eq_true_eq] at h
  by_contra hs
  rw [Bool.not_eq_false] at hs
  simp only [isLineTerm, Bool.or_eq_true, beq_iff_eq] at hs
  omega

theorem isPyDigit_ne_colon (c : Char) (h : isPyDigit c = true) : c ≠ ':' := by
  intro e
  subst e
  exact absurd h (by decide)

theorem isPySpace_ne_colon (c : Char) (h : isPySpace c = true) : c ≠ ':' := by
  intro e
  subst e
  exact absurd h (by decide)

theorem isPySpace_not_digit (c : Char) (h : isPySpace c = true) :
    isPyDigit c = false := by
  simp only [isPySpace, Bool.or_eq_true, beq_iff_eq] at h
  by_contra hd
  rw [Bool.not_eq_false] at hd
  simp only [isPyDigit, Bool.and_eq_true, decide_eq_true_eq] at hd
  omega

theorem isLineTerm_space (c : Char) (h : isLineTerm c = true) :
    isPySpace c = true := by
  simp only [isLineTerm, Bool.or_eq_true, beq_iff_eq] at h
  simp only [isPySpace, Bool.or_eq_true, beq_iff_eq]
  omega

theorem takeWhile_append_all {p : Char → Bool} (l1 l2 : List Char)
    (h : ∀ c ∈ l1, p c = true) :
    (l1 ++ l2).takeWhile p = l1 ++ l2.takeWhile p := by
  induction l1 with
  | nil => simp
  | cons c rest ih =>
    simp only [List.cons_append, List.takeWhile_cons, h c (by simp), if_true,
      ih (fun x hx => h x (by simp [hx]))]

theorem dropWhile_append_all {p : Char → Bool} (l1 l2 : List Char)
    (h : ∀ c ∈ l1, p c = true) :
    (l1 ++ l2).dropWhile p = l2.dropWhile p := by
  induction l1 with
  | nil => simp
  | cons c rest ih =>
    simp only [List.cons_append, List.dropWhile_cons, h c (by simp), if_pos]
    exact ih (fun x hx => h x (by simp [hx]))

theorem takeWhile_all {p : Char → Bool} (l : List Char)
    (h : ∀ c ∈ l, p c = true) : l.takeWhile p = l := by
  induction l with
  | nil => simp
  | cons c rest ih =>
    simp only [List.takeWhile_cons, h c (by simp), if_pos]
    rw [ih (fun x hx => h x (by simp [hx]))]

theorem dropWhile_all {p : Char → Bool} (l : List Char)
    (h : ∀ c ∈ l, p c = true) : l.dropWhile p = [] := by
  induction l with
  | nil => simp
  | cons c rest ih =>
    simp only [List.dropWhile_cons, h c (by simp), if_pos]
    exact ih (fun x hx => h x (by simp [hx]))

theorem dropWhile_none {p : Char → Bool} (l : List Char)
    (h : ∀ c ∈ l, p c = false) : l.dropWhile p = l := by
  cases l with
  | nil => rfl
  | cons c rest => simp [List.dropWhile_cons, h c (by simp)]

end VerifyFixtures

namespace VerifyFixtures

/-- `t` is a suffix of `s` (as a drop). -/
def SufOf (t s : List Char) : Prop := ∃ n, t = s.drop n

theorem sufOf_refl (s : List Char) : SufOf s s := ⟨0, rfl⟩

theorem sufOf_dropWhile (p : Char → Bool) (s : List Char) :
    SufOf (s.dropWhile p) s := by
  induction s with
  | nil => exact ⟨0, rfl⟩
  | cons c rest ih =>
    by_cases h : p c = true
    · rw [List.dropWhile_cons, if_pos h]
      obtain ⟨n, hn⟩ := ih
      exact ⟨n + 1, by simpa using hn⟩
    · rw [List.dropWhile_cons, if_neg h]
      exact ⟨0, rfl⟩

theorem sufOf_cons_inner {c : Char} {t s : List Char}
    (h : SufOf (c :: t) s) : SufOf t s := by
  obtain ⟨n, hn⟩ := h
  refine ⟨n + 1, ?_⟩
  have : s.drop (n + 1) = (s.drop n).drop 1 := by
    rw [List.drop_drop]
  rw [this, ← hn]
  rfl

theorem sufOf_trans {t u s : List Char} (h1 : SufOf t u) (h2 : SufOf u s) :
    SufOf t s := by
  obtain ⟨m, hm⟩ := h1
  obtain ⟨n, hn⟩ := h2
  exact ⟨m + n, by rw [hm, hn, List.drop_drop, Nat.add_comm]⟩

theorem head?_mem {l : List Char} {c : Char} (h : l.head? = some c) : c ∈ l := by
  cases l <;> simp_all

theorem dropWhile_space_suffix :
    ∀ (A W R : List Char), (∀ c ∈ A, isPySpace c = false) →
      (∀ c ∈ W, isPySpace c = true) → (∀ c ∈ R, isPySpace c = false) →
      ∀ (n : Nat) (c : Char), ((A ++ (W ++ R)).drop n).head? = some c →
      isPySpace c = true →
      ((A ++ (W ++ R)).drop n).dropWhile isPySpace = R := by
  intro A
  induction A with
  | nil =>
    intro W
    induction W with
    | nil =>
      intro R _ _ hR n c hh hc
      exfalso
      simp only [List.nil_append] at hh
      have hm : c ∈ R := List.drop_subset _ _ (head?_mem hh)
      rw [hR c hm] at hc
      exact Bool.noConfusion hc
    | cons w W' ihW =>
      intro R hA hW hR n c hh hc
      cases n with
      | zero =>
        simp only [List.nil_append, List.cons_append, List.drop_zero] at hh ⊢
        rw [List.dropWhile_cons, if_pos (hW w (by simp))]
        rw [dropWhile_append_all W' R (fun x hx => hW x (by simp [hx]))]
        exact dropWhile_none R hR
      | succ n' =>
        simp only [List.nil_append, List.cons_append, List.drop_succ_cons] at hh ⊢
        have := ihW R hA (fun x hx => hW x (by simp [hx])) hR n' c
        simp only [List.nil_append] at this
        exact this hh hc
  | cons a A' ihA =>
    intro W R hA hW hR n c hh hc
    cases n with
    | zero =>
      simp only [List.cons_append, List.drop_zero, List.head?_cons,
        Option.some.injEq] at hh
      rw [← hh] at hc
      rw [hA a (by simp)] at hc
      exact Bool.noConfusion hc
    | succ n' =>
      simp only [List.cons_append, List.drop_succ_cons] at hh ⊢
      exact ihA W R (fun x hx => hA x (by simp [hx])) hW hR n' c hh hc

theorem matchRuleTail_no_space (R : List Char)
    (hR : ∀ c ∈ R, isPySpace c = false) : matchRuleTail R = none := by
  rw [matchRuleTail]
  have hd : R.dropWhile (fun c => !isPySpace c) = [] :=
    dropWhile_all R (fun c hc => by rw [hR c hc]; rfl)
  rw [hd]
  split
  · rfl
  · rfl
  · next h1 h2 => exact absurd rfl h2

theorem matchTail_no_space (R : List Char)
    (hR : ∀ c ∈ R, isPySpace c = false) : matchTail R = none := by
  rw [matchTail]
  have hrt := matchRuleTail_no_space R hR
  by_cases hs : startsWithL R "error".toList = true
  · rw [if_pos hs]
    rcases hdrop : R.drop 5 with _ | ⟨c, rest⟩
    · rw [hrt]
    · have hcR : c ∈ R := List.drop_subset _ _ (by rw [hdrop]; simp)
      dsimp only
      rw [if_neg (by rw [hR c hcR]; simp)]
      exact hrt
  · rw [if_neg hs]
    rw [hrt]

end VerifyFixtures

namespace VerifyFixtures

theorem matchColumn_snd_suffix (r3 : List Char) : SufOf (matchColumn r3).2 r3 := by
  rcases r3 with _ | ⟨c, r3'⟩
  · exact sufOf_refl _
  · simp only [matchColumn]
    by_cases hc : c = ':'
    · rw [if_pos hc]
      split
    /- branch: no digits after the colon, group empty -/
      · exact sufOf_refl _
      · exact sufOf_trans (sufOf_dropWhile _ _) (sufOf_cons_inner (sufOf_refl _))
    · rw [if_neg hc]
      exact sufOf_refl _

/-- A line consisting of a whitespace-free segment, a whitespace run and
a final whitespace-free segment never matches `_RE_ERROR_LINE`: the
pattern needs a whitespace run after the rule token, which would be a
second separate run. -/
theorem matchErrorLine_one_space_run (A W R : List Char)
    (hA : ∀ c ∈ A, isPySpace c = false) (hW : ∀ c ∈ W, isPySpace c = true)
    (hR : ∀ c ∈ R, isPySpace c = false) :
    matchErrorLine (A ++ (W ++ R)) = none := by
  rw [matchErrorLine]
  split
  · rfl
  · split
    · next c1 r2 heq =>
      by_cases hc1 : c1 = ':'
      · rw [if_pos hc1]
        split
        · rfl
        · have hsuf2 : SufOf r2 (A ++ (W ++ R)) :=
            sufOf_cons_inner (heq ▸ sufOf_dropWhile (fun c => c != ':') _)
          have hsufC : SufOf (matchColumn (r2.dropWhile isPyDigit)).2 (A ++ (W ++ R)) :=
            sufOf_trans (matchColumn_snd_suffix _)
              (sufOf_trans (sufOf_dropWhile _ _) hsuf2)
          split
          · next c hrest heq2 =>
            by_cases hsp : isPySpace c = true
            · rw [if_pos hsp]
              obtain ⟨n, hn⟩ := hsufC
              have hhead : ((A ++ (W ++ R)).drop n).head? = some c := by
                rw [← hn, heq2]
                rfl
              have hdw : (matchColumn (r2.dropWhile isPyDigit)).2.dropWhile isPySpace = R := by
                rw [hn]
                exact dropWhile_space_suffix A W R hA hW hR n c hhead hsp
              rw [hdw, matchTail_no_space R hR]
            · rw [if_neg hsp]
          · rfl
      · rw [if_neg hc1]
    · rfl

end VerifyFixtures

namespace VerifyFixtures

theorem takeWhile_nil {p : Char → Bool} (c : Char) (l : List Char)
    (h : p c = false) : (c :: l).takeWhile p = [] := by
  simp [List.takeWhile_cons, h]

theorem dropWhile_id {p : Char → Bool} (c : Char) (l : List Char)
    (h : p c = false) : (c :: l).dropWhile p = c :: l := by
  simp [List.dropWhile_cons, h]

/-- A line of the shape `label:digits[:coldigits]<ws><rule>` with a
colon-free label, a nonempty digit run, a nonempty whitespace run and a
whitespace-free rule segment never matches `_RE_ERROR_LINE`. -/
theorem matchErrorLine_label_no_colon
    (label digits colpart ws rule : List Char)
    (hlab : ∀ c ∈ label, (c != ':') = true)
    (hd : digits ≠ []) (hdd : ∀ c ∈ digits, isPyDigit c = true)
    (hcp : colpart = [] ∨
      ∃ cd, colpart = ':' :: cd ∧ cd ≠ [] ∧ ∀ c ∈ cd, isPyDigit c = true)
    (hws : ws ≠ []) (hw : ∀ c ∈ ws, isPySpace c = true)
    (hr : ∀ c ∈ rule, isPySpace c = false) :
    matchErrorLine (label ++ ':' :: (digits ++ (colpart ++ (ws ++ rule)))) = none := by
  rcases List.exists_cons_of_ne_nil hws with ⟨w, ws', rfl⟩
  have hwsp : isPySpace w = true := hw w (by simp)
  have hwnd : isPyDigit w = false := isPySpace_not_digit w hwsp
  have hcolon_ne : ((':' : Char) != ':') = false := by decide
  have hcolon_nd : isPyDigit ':' = false := by decide
  have hcolon_nsp : isPySpace ':' = false := by decide
  have htw0 : (colpart ++ (w :: ws' ++ rule)).takeWhile isPyDigit = [] := by
    rcases hcp with rfl | ⟨cd, rfl, _, _⟩
    · simp only [List.nil_append, List.cons_append]
      exact takeWhile_nil w _ hwnd
    · simp only [List.cons_append]
      exact takeWhile_nil ':' _ hcolon_nd
  have hdw0 : (colpart ++ (w :: ws' ++ rule)).dropWhile isPyDigit =
      colpart ++ (w :: ws' ++ rule) := by
    rcases hcp with rfl | ⟨cd, rfl, _, _⟩
    · simp only [List.nil_append, List.cons_append]
      exact dropWhile_id w _ hwnd
    · simp only [List.cons_append]
      exact dropWhile_id ':' _ hcolon_nd
  rw [matchErrorLine]
  by_cases hl : (label ++ ':' :: (digits ++ (colpart ++ (w :: ws' ++ rule)))).takeWhile
      (fun c => c != ':') = []
  · rw [if_pos hl]
  · rw [if_neg hl]
    have hdrop : (label ++ ':' :: (digits ++ (colpart ++ (w :: ws' ++ rule)))).dropWhile
        (fun c => c != ':') = ':' :: (digits ++ (colpart ++ (w :: ws' ++ rule))) := by
      rw [dropWhile_append_all label _ hlab]
      exact dropWhile_id ':' _ hcolon_ne
    rw [hdrop]
    dsimp only
    rw [if_pos rfl]
    have htw : (digits ++ (colpart ++ (w :: ws' ++ rule))).takeWhile isPyDigit =
        digits := by
      rw [takeWhile_append_all digits _ hdd, htw0, List.append_nil]
    have hdw : (digits ++ (colpart ++ (w :: ws' ++ rule))).dropWhile isPyDigit =
        colpart ++ (w :: ws' ++ rule) := by
      rw [dropWhile_append_all digits _ hdd, hdw0]
    rw [htw, if_neg hd, hdw]
    have hcol2 : (matchColumn (colpart ++ (w :: ws' ++ rule))).2 =
        w :: (ws' ++ rule) := by
      rcases hcp with rfl | ⟨cd, rfl, hcdne, hcd⟩
      · simp only [List.nil_append, List.cons_append, matchColumn]
        rw [if_neg (isPySpace_ne_colon w hwsp)]
      · simp only [List.cons_append, matchColumn]
        rw [if_pos trivial]
        have : (cd ++ (w :: (ws' ++ rule))).takeWhile isPyDigit = cd := by
          rw [takeWhile_append_all cd _ hcd, takeWhile_nil w _ hwnd, List.append_nil]
        rw [this, if_neg hcdne]
        rw [dropWhile_append_all cd _ hcd]
        exact dropWhile_id w _ hwnd
    rw [hcol2]
    dsimp only
    rw [if_pos hwsp]
    have ht : (w :: (ws' ++ rule)).dropWhile isPySpace = rule := by
      rw [List.dropWhile_cons, if_pos hwsp, dropWhile_append_all ws' _
        (fun x hx => hw x (by simp [hx]))]
      exact dropWhile_none rule hr
    rw [ht, matchTail_no_space rule hr]

end VerifyFixtures

namespace VerifyFixtures

/-- Core of the amended C10: a line `label:digits[:coldigits]<ws><rule>`
whose label has no colon or no whitespace never matches the pattern. -/
theorem lineRecord_none (lbl l : List Char) (h : matchErrorLine l = none) :
    lineRecord lbl l = none := by
  rw [lineRecord, h]
  dsimp only
  split <;> rfl

theorem c10_core (label digits colpart ws rule : List Char)
    (hlabel : (∀ c ∈ label, c ≠ ':') ∨ (∀ c ∈ label, isPySpace c = false))
    (hd : digits ≠ []) (hdd : ∀ c ∈ digits, isPyDigit c = true)
    (hcp : colpart = [] ∨
      ∃ cd, colpart = ':' :: cd ∧ cd ≠ [] ∧ ∀ c ∈ cd, isPyDigit c = true)
    (hws : ws ≠ []) (hw : ∀ c ∈ ws, isPySpace c = true)
    (hr : ∀ c ∈ rule, isPySpace c = false) :
    matchErrorLine (label ++ ':' :: (digits ++ (colpart ++ (ws ++ rule)))) = none := by
  rcases hlabel with hnc | hnsp
  · exact matchErrorLine_label_no_colon label digits colpart ws rule
      (fun c hc => by simp [bne_iff_ne, hnc c hc]) hd hdd hcp hws hw hr
  · have hre : label ++ ':' :: (digits ++ (colpart ++ (ws ++ rule))) =
        (label ++ ':' :: (digits ++ colpart)) ++ (ws ++ rule) := by
      simp [List.append_assoc, List.cons_append]
    rw [hre]
    apply matchErrorLine_one_space_run _ _ _ _ hw hr
    intro c hc
    simp only [List.mem_append, List.mem_cons] at hc
    rcases hc with hc | hc | hc
    · exact hnsp c hc
    · subst hc; decide
    · rcases hc with hc | hc
      · exact isPyDigit_not_space c (hdd c hc)
      · rcases hcp with rfl | ⟨cd, rfl, _, hcd⟩
        · simp at hc
        · rcases List.mem_cons.mp hc with rfl | hc
          · decide
          · exact isPyDigit_not_space c (hcd c hc)

/-- C10 (counterexample): with file label `x:1 y` (containing both a
colon and a whitespace character) the output line `x:1 y:2 MD001` has
the claimed shape `<label>:<line> <rule>` (line 2, rule MD001, no
whitespace after the rule token), yet the parser produces a record from
it: the pattern re-reads the label text as the position and rule. -/
theorem c10_counterexample :
    "x:1 y:2 MD001".toList =
      "x:1 y".toList ++ ':' :: ("2".toList ++ ([] ++ (" ".toList ++ "MD001".toList))) ∧
    parse_markdownlint_output "x:1 y:2 MD001".toList "x:1 y".toList =
      [⟨1, "y:2".toList, none, none, some "MD001".toList⟩] := by
  constructor
  · decide
  · decide

/-- C10 (amended): for every file label that contains no colon or
contains no whitespace character, an output line of the form
`<label>:<line> <rule>` or `<label>:<line>:<column> <rule>` with no
whitespace after the rule token produces no Diagnostic Record: the
pattern requires at least one whitespace character between the rule
token and the (possibly empty) message tail, so such a line is silently
dropped. -/
theorem c10_no_trailing_whitespace (label digits coldigits ws rule : List Char)
    (useCol : Bool)
    (hlabel : (∀ c ∈ label, c ≠ ':') ∨ (∀ c ∈ label, isPySpace c = false))
    (hlterm : ∀ c ∈ label, isLineTerm c = false)
    (hd : digits ≠ []) (hdd : ∀ c ∈ digits, isPyDigit c = true)
    (hcd : useCol = true → coldigits ≠ [] ∧ ∀ c ∈ coldigits, isPyDigit c = true)
    (hws : ws ≠ []) (hw : ∀ c ∈ ws, isPySpace c = true ∧ isLineTerm c = false)
    (hrne : rule ≠ [])
    (hr : ∀ c ∈ rule, isPySpace c = false ∧ isLineTerm c = false) :
    parse_markdownlint_output
      (label ++ ':' ::
        (digits ++ ((if useCol then ':' :: coldigits else []) ++ (ws ++ rule))))
      label = [] := by
  have hcp : (if useCol then ':' :: coldigits else []) = [] ∨
      ∃ cd, (if useCol then ':' :: coldigits else []) = ':' :: cd ∧ cd ≠ [] ∧
        ∀ c ∈ cd, isPyDigit c = true := by
    cases useCol
    · left; rfl
    · right; exact ⟨coldigits, rfl, (hcd rfl).1, (hcd rfl).2⟩
  have hmel : matchErrorLine
      (label ++ ':' ::
        (digits ++ ((if useCol then ':' :: coldigits else []) ++ (ws ++ rule)))) =
      none :=
    c10_core label digits _ ws rule hlabel hd hdd hcp hws
      (fun c hc => (hw c hc).1) (fun c hc => (hr c hc).1)
  have hterm : ∀ c ∈ label ++ ':' ::
      (digits ++ ((if useCol then ':' :: coldigits else []) ++ (ws ++ rule))),
      isLineTerm c = false := by
    intro c hc
    simp only [List.mem_append, List.mem_cons] at hc
    rcases hc with hc | hc | hc
    · exact hlterm c hc
    · subst hc; decide
    · rcases hc with hc | hc
      · exact isPyDigit_not_term c (hdd c hc)
      · rcases hc with hc | hc
        · rcases hcp with hcpe | ⟨cd, hcpe, _, hcd'⟩ <;> rw [hcpe] at hc
          · simp at hc
          · rcases List.mem_cons.mp hc with rfl | hc
            · decide
            · exact isPyDigit_not_term c (hcd' c hc)
        · rcases hc with hc | hc
          · exact (hw c hc).2
          · exact (hr c hc).2
  have hSne : label ++ ':' ::
      (digits ++ ((if useCol then ':' :: coldigits else []) ++ (ws ++ rule))) ≠ [] := by
    simp
  have hsplit := splitlines_no_term _ hterm hSne
  have hlr := lineRecord_none label _ hmel
  rw [parse_markdownlint_output, hsplit, parse_lines]
  simp only [List.filterMap_cons, hlr, List.filterMap_nil]

/-- Witness for `c10_no_trailing_whitespace` at a concrete line. -/
theorem c10_no_trailing_whitespace_witness :
    parse_markdownlint_output
      ("foo.md".toList ++ ':' ::
        ("3".toList ++ ((if false then ':' :: "5".toList else []) ++
          (" ".toList ++ "MD001".toList))))
      "foo.md".toList = [] :=
  c10_no_trailing_whitespace "foo.md".toList "3".toList "5".toList " ".toList
    "MD001".toList false (Or.inl (by decide)) (by decide) (by decide) (by decide)
    (by decide) (by decide) (by decide) (by decide) (by decide)

end VerifyFixtures
